import Mathlib

/- Verification development for the recursive decay and transmutation chain
solver specified for the python-ne repository.  The tutorial sources invoke
the solver through pyne.transmute.chainsolve (tutorial/06-transmutation.py),
but the implementation of the subsystem (BatemanSolver, ChainBuilder,
ChainCache, Transmuter) is not itself part of the repository sources, and the
specification states that the subsystem is not present verbatim in the source
corpus.  Following the specification, the subsystem is therefore modelled here
from the specification text.  Real valued quantities are modelled by
rationals; the exponential function is an explicit parameter E of every
evaluator, standing for the mathematical exponential used by the code.  A
computation that would raise a runtime error (division by zero, missing decay
data) is modelled by an Option valued function returning none. -/

namespace PyNE

/-- Modelled from the spec: the relative numerical tolerance with which
BatemanSolver detects coincident removal constants (spec section 4.2 gives the
example value 1e-9). -/
def relTol : ℚ := 1 / 10 ^ 9

/-- Modelled from the spec: two removal constants coincide when they agree
within the relative numerical tolerance. -/
def coincide (x y : ℚ) : Bool := decide (|x - y| ≤ relTol * max |x| |y|)

/-- Modelled from the spec: detection of a degenerate root configuration, true
when some two entries of the list coincide within the tolerance. -/
def pairCoincide : List ℚ → Bool
  | [] => false
  | x :: xs => xs.any (fun y => coincide x y) || pairCoincide xs

/-- Checked division: none models a ZeroDivisionError raised by the naive
formula when a denominator vanishes. -/
def cdiv (x y : ℚ) : Option ℚ := if y = 0 then none else some (x / y)

/-- Modelled from the spec: the generic Bateman coefficient for the removal
constant x, namely the product over the other removal constants y of
y / (y - x), computed by the implementation with checked division. -/
def prodOver (x : ℚ) (others : List ℚ) : Option ℚ :=
  others.foldlM (fun acc y => (cdiv y (y - x)).map (fun q => acc * q)) 1

/-- Modelled from the spec: one term of the generic Bateman sum for removal
constant x with the remaining constants in others.  For x different from zero
the term is the generic coefficient times E (-x * t); for x equal to zero the
term takes the accumulation limit form instead of the generic term, namely the
analytic limit of the generic term as x tends to zero (the exponential factor
degenerating to one). -/
def termOf (t : ℚ) (E : ℚ → ℚ) (x : ℚ) (others : List ℚ) : Option ℚ :=
  (prodOver x others).map (fun c => if x = 0 then c else c * E (-x * t))

/-- Modelled from the spec: the generic Bateman sum, traversing the list of
removal constants with pre holding the constants already passed, so that each
position contributes one term built from that constant and all the others. -/
def sumGo (t : ℚ) (E : ℚ → ℚ) : List ℚ → List ℚ → Option ℚ
  | _, [] => some 0
  | pre, x :: suf =>
      (termOf t E x (pre ++ suf)).bind (fun tm =>
        (sumGo t E (pre ++ [x]) suf).map (fun rest => tm + rest))

/-- Pure statement form of the generic Bateman coefficient: the product over
the other removal constants y of y / (y - x), with total field division. -/
def specProd (x : ℚ) (others : List ℚ) : ℚ :=
  (others.map (fun y => y / (y - x))).prod

/-- Pure statement form of one generic Bateman term. -/
def specTerm (t : ℚ) (E : ℚ → ℚ) (x : ℚ) (others : List ℚ) : ℚ :=
  if x = 0 then specProd 0 others else specProd x others * E (-x * t)

/-- Pure statement form of the generic Bateman sum over all positions of the
list, each position paired with the remaining removal constants. -/
def specSumGo (t : ℚ) (E : ℚ → ℚ) : List ℚ → List ℚ → ℚ
  | _, [] => 0
  | pre, x :: suf => specTerm t E x (pre ++ suf) + specSumGo t E (pre ++ [x]) suf

/-- Pure statement form of the full generic Bateman sum of a path. -/
def specSum (lams : List ℚ) (t : ℚ) (E : ℚ → ℚ) : ℚ :=
  specSumGo t E [] lams

/- Degenerate limit machinery.  A function that is a finite sum of terms, each
a polynomial in t times an exponential E (-mu * t), is represented by a list
of pairs of a rate mu and a coefficient list of the polynomial. -/

/-- Polynomial represented by its coefficient list, lowest degree first. -/
abbrev Poly := List ℚ

/-- Pointwise sum of two coefficient lists. -/
def polyAdd : Poly → Poly → Poly
  | [], q => q
  | p, [] => p
  | a :: p, b :: q => (a + b) :: polyAdd p q

/-- Scale every coefficient. -/
def polyScale (c : ℚ) (p : Poly) : Poly := p.map (fun a => c * a)

/-- Horner evaluation of a coefficient list. -/
def polyEval (p : Poly) (t : ℚ) : ℚ :=
  match p with
  | [] => 0
  | c :: rest => c + t * polyEval rest t

/-- Coefficient list of the monomial of the given degree. -/
def monomialP (k : Nat) : Poly := List.replicate k 0 ++ [1]

/-- Antiderivative coefficients: index k input coefficient c becomes index
k + 1 output coefficient c / (k + 1). -/
def polyIntAux (k : Nat) : Poly → Poly
  | [] => []
  | c :: rest => c / (k + 1) :: polyIntAux (k + 1) rest

/-- Antiderivative of a polynomial vanishing at zero. -/
def polyIntegrate (p : Poly) : Poly := 0 :: polyIntAux 0 p

/-- Coefficient list G of the polynomial with (G t) * E (a * t) an
antiderivative of t ^ k * E (a * t), for a nonzero a; defined by the
integration by parts recurrence. -/
def intPoly (a : ℚ) : Nat → Poly
  | 0 => [1 / a]
  | k + 1 => polyAdd (polyScale (1 / a) (monomialP (k + 1)))
      (polyScale (-((k : ℚ) + 1) / a) (intPoly a k))

/-- Sum of polynomial times exponential terms: each pair (mu, p) denotes
polyEval p t * E (-mu * t). -/
abbrev ExpPoly := List (ℚ × Poly)

/-- Merge one polynomial times exponential term into a term list, combining
with an existing term of the same rate. -/
def epAddTerm (mu : ℚ) (p : Poly) : ExpPoly → ExpPoly
  | [] => [(mu, p)]
  | (nu, q) :: rest =>
      if mu = nu then (nu, polyAdd p q) :: rest else (nu, q) :: epAddTerm mu p rest

/-- Merge two term lists. -/
def epAdd (xs ys : ExpPoly) : ExpPoly :=
  ys.foldl (fun acc pr => epAddTerm pr.1 pr.2 acc) xs

/-- Scale every polynomial of a term list. -/
def epScale (c : ℚ) (xs : ExpPoly) : ExpPoly :=
  xs.map (fun pr => (pr.1, polyScale c pr.2))

/-- Value of a term list at time t with exponential oracle E. -/
def epEval (xs : ExpPoly) (t : ℚ) (E : ℚ → ℚ) : ℚ :=
  (xs.map (fun pr => polyEval pr.2 t * E (-pr.1 * t))).sum

/-- Convolution of the monomials of one term, rate mu and coefficients p,
against a fresh exponential of rate nu: the closed form of the integral from
zero to t of E (-nu * (t - s)) times the term at s.  When the rates agree the
polynomial is integrated directly; otherwise integration by parts applies with
the nonzero rate difference as the only divisor. -/
def convGo (a nu mu : ℚ) (k : Nat) : Poly → ExpPoly
  | [] => []
  | c :: rest =>
      epAddTerm mu (polyScale c (intPoly a k))
        (epAddTerm nu [-(c * (intPoly a k).headD 0)] (convGo a nu mu (k + 1) rest))

/-- Convolution of one whole term against a fresh exponential of rate nu. -/
def convTerm (nu mu : ℚ) (p : Poly) : ExpPoly :=
  if mu = nu then [(nu, polyIntegrate p)] else convGo (nu - mu) nu mu 0 p

/-- Convolution of a full term list against a fresh exponential of rate nu. -/
def convolve (nu : ℚ) (S : ExpPoly) : ExpPoly :=
  S.foldl (fun acc pr => epAdd acc (convTerm nu pr.1 pr.2)) []

/-- Modelled from the spec: canonicalization of the removal constants for the
degenerate branch, replacing every constant by the representative of the first
group it coincides with, so that coincident values become exactly equal. -/
def canonGo : List ℚ → List ℚ → List ℚ
  | _, [] => []
  | reps, x :: xs =>
      match reps.find? (fun r => coincide r x) with
      | some r => r :: canonGo reps xs
      | none => x :: canonGo (reps ++ [x]) xs

/-- Canonicalized removal constant list. -/
def canonicalize (lams : List ℚ) : List ℚ := canonGo [] lams

/-- Modelled from the spec: the chain state recursion of the degenerate limit
solution, feeding the accumulated polynomial times exponential state through
each successive removal constant. -/
def degGo : ℚ → ExpPoly → List ℚ → ExpPoly
  | _, S, [] => S
  | prev, S, nu :: rest => degGo nu (epScale prev (convolve nu S)) rest

/-- Modelled from the spec: the standard degenerate limit solution of a chain
with coincident removal constants, a sum of polynomial in t times exponential
terms obtained by exact confluent convolution of the canonicalized chain. -/
def degenerateEP : List ℚ → ExpPoly
  | [] => []
  | l0 :: rest => degGo l0 [(l0, [1])] rest

/-- Value of the degenerate limit solution at time t. -/
def degenerateVal (lams : List ℚ) (t : ℚ) (E : ℚ → ℚ) : ℚ :=
  epEval (degenerateEP (canonicalize lams)) t E

/-- Modelled from the spec: BatemanSolver.solve.  P is the product of the
branch probabilities along the path, lams the ordered removal constants along
the path, t the elapsed time and E the exponential oracle.  When two or more
removal constants coincide within the relative tolerance the degenerate limit
closed form is evaluated instead of the generic formula; otherwise the generic
Bateman sum is computed with checked divisions, none modelling a raised
division error. -/
def solve (P : ℚ) (lams : List ℚ) (t : ℚ) (E : ℚ → ℚ) : Option ℚ :=
  if pairCoincide lams then some (P * degenerateVal lams t E)
  else (sumGo t E [] lams).map (fun s => P * s)

/- ChainBuilder.  The tree of production paths is represented as the list of
its nodes, each node carrying its whole root-to-node path data, matching the
description of a DecayChainTree in the spec as the set of root-to-node paths
sharing prefixes in an arena indexed structure. -/

/-- Modelled from the spec: closed tagged variant enumeration of branch
kinds at the core boundary. -/
inductive BranchKind
  | decay
  | reaction
deriving DecidableEq, Repr

/-- Modelled from the spec: one decay or reaction branch, a daughter nuclide
with its branch probability and kind. -/
structure Branch where
  daughter : Nat
  prob : ℚ
  kind : BranchKind
deriving DecidableEq, Repr

/-- Modelled from the spec: the decay record of a nuclide, its decay constant
and decay branch list. -/
structure DecayInfo where
  decayConst : ℚ
  branches : List Branch
deriving DecidableEq, Repr

/-- Modelled from the spec: the aggregated one group reaction removal of a
nuclide under a flux, structurally identical to a decay branch set. -/
structure ReactionInfo where
  removalRate : ℚ
  branches : List Branch
deriving DecidableEq, Repr

/-- Modelled from the spec: the abstract NuclideDataProvider interface; a
flux is an opaque key (already collapsed to one group by a collaborator).
A none result of decay_info models the NoDecayData failure and a none result
of reaction_removal models the non-fatal NoReactionData condition. -/
structure NuclideDataProvider where
  decay_info : Nat → Option DecayInfo
  reaction_removal : Nat → Nat → Option ReactionInfo

/-- Modelled from the spec: the total removal constant of a nuclide (decay
constant plus total reaction removal rate) together with the union of decay
and reaction branches, probabilities renormalized so each kind contributes
its share of the total removal constant. -/
def nodeData (dp : NuclideDataProvider) (flux : Nat) (n : Nat) :
    Option (ℚ × List (Nat × ℚ)) :=
  match dp.decay_info n with
  | none => none
  | some di =>
      let rr := match dp.reaction_removal n flux with
        | none => ((0 : ℚ), ([] : List Branch))
        | some ri => (ri.removalRate, ri.branches)
      let lam := di.decayConst + rr.1
      let brs :=
        if lam = 0 then []
        else di.branches.map (fun b => (b.daughter, b.prob * (di.decayConst / lam))) ++
          rr.2.map (fun b => (b.daughter, b.prob * (rr.1 / lam)))
      some (lam, brs)

/-- Modelled from the spec: the flag of a chain node, either an expanded
internal node or one of the two leaf forms, terminal stable or truncated. -/
inductive NodeFlag
  | internal
  | terminalStable
  | truncated
deriving DecidableEq, Repr

/-- Modelled from the spec: a ChainNode carries the nuclide id, removal
constant, removal constants of the whole root-to-node path, cumulative branch
fraction, depth, leaf flag, a warning marker for the missing-data stable
fallback, and a marker for cycle or depth-cap truncation. -/
structure ChainNode where
  nuclide : Nat
  removalConst : ℚ
  pathLams : List ℚ
  cumFrac : ℚ
  depth : Nat
  flag : NodeFlag
  warnMissing : Bool
  cycleCapped : Bool
deriving DecidableEq, Repr

/-- Modelled from the spec: child processing of the depth first expansion.
For each branch the cumulative fraction of the child is the parent fraction
times the branch probability; a fraction below the tolerance makes the child
a truncated leaf carrying that fraction as its omission bound; a child that
would revisit a nuclide of the current path becomes a cycle capped truncated
leaf; otherwise the expansion recurses through the rec argument.  The second
component accumulates the omission bounds of the truncated leaves created. -/
def expandChildren (tol : ℚ)
    (rec : Nat → ℚ → List ℚ → List Nat → Nat → List ChainNode × ℚ) :
    List (Nat × ℚ) → ℚ → List ℚ → List Nat → Nat → List ChainNode × ℚ
  | [], _, _, _, _ => ([], 0)
  | (d, p) :: bs, frac, lams, vis, depth =>
      let cf := frac * p
      let head :=
        if cf < tol then
          ([{ nuclide := d, removalConst := 0, pathLams := lams ++ [0], cumFrac := cf,
              depth := depth + 1, flag := .truncated, warnMissing := false,
              cycleCapped := false }], cf)
        else if d ∈ vis then
          ([{ nuclide := d, removalConst := 0, pathLams := lams ++ [0], cumFrac := cf,
              depth := depth + 1, flag := .truncated, warnMissing := false,
              cycleCapped := true }], cf)
        else rec d cf lams vis (depth + 1)
      let rest := expandChildren tol rec bs frac lams vis depth
      (head.1 ++ rest.1, head.2 + rest.2)

/-- Modelled from the spec: depth first recursive expansion of the production
tree, the fuel argument realizing the absolute depth cap of the cycle guard.
Exhausted fuel yields a cycle capped truncated leaf; a nuclide without decay
data yields a stable leaf with a warning (the conservative fallback for a
non-root branch); an empty unified branch set, which nodeData produces in
particular for a zero removal constant, yields a terminal stable leaf;
otherwise the node is internal and its branch set is expanded with the node
pushed onto the visited path. -/
def expandGo (dp : NuclideDataProvider) (flux : Nat) (tol : ℚ) :
    Nat → Nat → ℚ → List ℚ → List Nat → Nat → List ChainNode × ℚ
  | 0, n, frac, lams, _, depth =>
      ([{ nuclide := n, removalConst := 0, pathLams := lams ++ [0], cumFrac := frac,
          depth := depth, flag := .truncated, warnMissing := false,
          cycleCapped := true }], frac)
  | fuel + 1, n, frac, lams, vis, depth =>
      match nodeData dp flux n with
      | none =>
          ([{ nuclide := n, removalConst := 0, pathLams := lams ++ [0], cumFrac := frac,
              depth := depth, flag := .terminalStable, warnMissing := true,
              cycleCapped := false }], 0)
      | some (lam, []) =>
          ([{ nuclide := n, removalConst := lam, pathLams := lams ++ [lam],
              cumFrac := frac, depth := depth, flag := .terminalStable,
              warnMissing := false, cycleCapped := false }], 0)
      | some (lam, b :: bs) =>
          let res := expandChildren tol (expandGo dp flux tol fuel) (b :: bs) frac
            (lams ++ [lam]) (n :: vis) depth
          ({ nuclide := n, removalConst := lam, pathLams := lams ++ [lam],
             cumFrac := frac, depth := depth, flag := .internal,
             warnMissing := false, cycleCapped := false } :: res.1, res.2)

/-- Modelled from the spec: a DecayChainTree is the node set of the expanded
tree together with its total bounded omission error. -/
structure DecayChainTree where
  nodes : List ChainNode
  omission : ℚ
deriving DecidableEq, Repr

/-- Modelled from the spec: ChainBuilder.expand; a none result models the
NoDecayData failure raised when the data provider has no data for the root. -/
def expand (dp : NuclideDataProvider) (flux : Nat) (tol : ℚ) (maxDepth : Nat)
    (root : Nat) : Option DecayChainTree :=
  match dp.decay_info root with
  | none => none
  | some _ =>
      let res := expandGo dp flux tol maxDepth root 1 [] [] 0
      some ⟨res.1, res.2⟩

/-- Sum of the cumulative fractions of the truncated leaves of a node list. -/
def truncOmission : List ChainNode → ℚ
  | [] => 0
  | nd :: rest => (if nd.flag = .truncated then nd.cumFrac else 0) + truncOmission rest

/-- Number of expanded (non truncated) nodes of a node list. -/
def expandedCount : List ChainNode → Nat
  | [] => 0
  | nd :: rest => (if nd.flag = .truncated then 0 else 1) + expandedCount rest

/-- Invariant of a chain node under tolerance tol: an internal (expanded) node
sits at or above the tolerance and has a nonzero removal constant; a truncated
node is either below the tolerance or cycle capped; a missing data warning
marks a stable leaf whose recorded removal constant is zero. -/
structure NodeInv (tol : ℚ) (nd : ChainNode) : Prop where
  internal_ge : nd.flag = .internal → tol ≤ nd.cumFrac ∧ nd.removalConst ≠ 0
  truncated_below : nd.flag = .truncated → nd.cumFrac < tol ∨ nd.cycleCapped = true
  warn_stable : nd.warnMissing = true → nd.flag = .terminalStable ∧ nd.removalConst = 0

/-- Concrete data provider used by the witnesses: nuclide 1 decays (constant
one) to nuclide 2 with probability 7/10 and to nuclide 3 with probability
3/10; nuclide 2 decays (constant two) to the stable nuclide 4; nuclide 3 is
unknown to the provider; there is no reaction data. -/
def dpEx : NuclideDataProvider where
  decay_info := fun n =>
    if n = 1 then some ⟨1, [⟨2, 7 / 10, .decay⟩, ⟨3, 3 / 10, .decay⟩]⟩
    else if n = 2 then some ⟨2, [⟨4, 1, .decay⟩]⟩
    else if n = 4 then some ⟨0, []⟩
    else none
  reaction_removal := fun _ _ => none

/-- Concrete two member chain used by counterexamples: nuclide 1 decays with
constant one entirely to nuclide 2, which is stable; no reaction data. -/
def dpC3 : NuclideDataProvider where
  decay_info := fun n =>
    if n = 1 then some ⟨1, [⟨2, 1, .decay⟩]⟩
    else if n = 2 then some ⟨0, []⟩
    else none
  reaction_removal := fun _ _ => none

/-- Branch free provider for the time additivity witness: nuclide 2 is known
and stable, nothing else is known, and there is no reaction data. -/
def dpC3x : NuclideDataProvider where
  decay_info := fun n => if n = 2 then some ⟨0, []⟩ else none
  reaction_removal := fun _ _ => none

/-- Constant exponential oracle, a multiplicative homomorphism on sums. -/
def oneE : ℚ → ℚ := fun _ => 1

/- ChainCache. -/

/-- Modelled from the spec: a cache entry records the tolerance the tree was
built with alongside the immutable tree structure. -/
structure CacheEntry where
  tol : ℚ
  tree : DecayChainTree
deriving DecidableEq, Repr

/-- Lookup of the entry stored under a key. -/
def cacheLookup : List ((Nat × Nat) × CacheEntry) → (Nat × Nat) → Option CacheEntry
  | [], _ => none
  | (k, e) :: rest, key => if k = key then some e else cacheLookup rest key

/-- Modelled from the spec: ChainCache, keyed by root nuclide and flux
fingerprint, extended with a log of build events (key and tolerance) that
realizes the build counter of the cache reuse property. -/
structure ChainCache where
  entries : List ((Nat × Nat) × CacheEntry)
  buildLog : List ((Nat × Nat) × ℚ)
deriving DecidableEq, Repr

/-- Cache with no entries and no recorded builds. -/
def emptyCache : ChainCache := ⟨[], []⟩

/-- Number of build events recorded for a root, flux fingerprint and
tolerance. -/
def buildCount (c : ChainCache) (root flux : Nat) (tol : ℚ) : Nat :=
  c.buildLog.countP (fun r => decide (r = ((root, flux), tol)))

/-- Modelled from the spec: ChainCache.get_or_build.  A cached tree is reused
exactly when its stored tolerance is at most (at least as tight as) the
requested one; a request strictly tighter than the cached tolerance triggers a
rebuild, as does a missing entry; a successful build is stored under the key
and logged.  A none tree component models the NoDecayData failure of the
builder, which is never cached. -/
def get_or_build (dp : NuclideDataProvider) (maxDepth : Nat) (c : ChainCache)
    (root flux : Nat) (tol : ℚ) : Option CacheEntry × ChainCache :=
  match cacheLookup c.entries (root, flux) with
  | some e =>
      if e.tol ≤ tol then (some e, c)
      else
        match expand dp flux tol maxDepth root with
        | none => (none, c)
        | some tr =>
            (some ⟨tol, tr⟩, ⟨((root, flux), ⟨tol, tr⟩) :: c.entries,
              ((root, flux), tol) :: c.buildLog⟩)
  | none =>
      match expand dp flux tol maxDepth root with
      | none => (none, c)
      | some tr =>
          (some ⟨tol, tr⟩, ⟨((root, flux), ⟨tol, tr⟩) :: c.entries,
            ((root, flux), tol) :: c.buildLog⟩)

/- Transmuter. -/

/-- Modelled from the spec: report warnings, one per failed root nuclide or
missing data branch. -/
inductive Warn
  | noDecayData (n : Nat)
  | missingBranch (root n : Nat)
deriving DecidableEq, Repr

/-- Modelled from the spec: the aggregate report of a transmute call. -/
structure Report where
  warnings : List Warn
  totalOmission : ℚ
  truncatedBranches : List (Nat × ℚ)
deriving DecidableEq, Repr

/-- Modelled from the spec: a material, a mapping from nuclide identifier to
amount, represented as an association list. -/
abbrev Material := List (Nat × ℚ)

/-- Add an amount for a nuclide into a material, merging with the first
existing entry for the same nuclide. -/
def addAmount : Material → Nat → ℚ → Material
  | [], n, v => [(n, v)]
  | (k, a) :: rest, n, v =>
      if k = n then (k, a + v) :: rest else (k, a) :: addAmount rest n v

/-- Amount recorded for a nuclide in a material (first entry, zero when
absent). -/
def amountOf (m : Material) (n : Nat) : ℚ :=
  match m with
  | [] => 0
  | (k, a) :: rest => if k = n then a else amountOf rest n

/-- Total amount carried by all entries of a pair list for one nuclide. -/
def amountTotal : List (Nat × ℚ) → Nat → ℚ
  | [], _ => 0
  | (k, a) :: rest, n => (if k = n then a else 0) + amountTotal rest n

/-- Value returned by the solver, zero as the degenerate default (the solver
is proved total, so the default never applies). -/
def solveVal (P : ℚ) (lams : List ℚ) (t : ℚ) (E : ℚ → ℚ) : ℚ :=
  (solve P lams t E).getD 0

/-- Result of processing one input nuclide: contribution deltas per descendant
nuclide, warnings, weighted omission bound, truncated branch list, and the
updated cache. -/
structure StepOut where
  deltas : List (Nat × ℚ)
  warns : List Warn
  omission : ℚ
  truncs : List (Nat × ℚ)
  cache : ChainCache

/-- Modelled from the spec: processing of one input nuclide with amount a.
Zero amounts are skipped; a root without decay data passes its amount through
unchanged with a NoDecayData warning (the default failure policy); otherwise
every non truncated node (root-to-node path) of the tree contributes a times
the Bateman value of its path to that node, the missing data leaves are
reported as warnings, the omission of the tree is weighted by the amount, and
the truncated branches are listed with their cumulative fractions. -/
def transmuteOne (dp : NuclideDataProvider) (maxDepth flux : Nat) (tol t : ℚ)
    (E : ℚ → ℚ) (c : ChainCache) (n : Nat) (a : ℚ) : StepOut :=
  if a = 0 then ⟨[], [], 0, [], c⟩
  else
    match get_or_build dp maxDepth c n flux tol with
    | (none, c2) => ⟨[(n, a)], [.noDecayData n], 0, [], c2⟩
    | (some e, c2) =>
        ⟨(e.tree.nodes.filter (fun nd => decide (nd.flag ≠ .truncated))).map
            (fun nd => (nd.nuclide, a * solveVal nd.cumFrac nd.pathLams t E)),
          (e.tree.nodes.filter (fun nd => nd.warnMissing)).map
            (fun nd => .missingBranch n nd.nuclide),
          a * e.tree.omission,
          (e.tree.nodes.filter (fun nd => decide (nd.flag = .truncated))).map
            (fun nd => (nd.nuclide, nd.cumFrac)),
          c2⟩

/-- Modelled from the spec: the per nuclide loop of Transmuter.transmute,
threading the cache and concatenating deltas, warnings, omissions and
truncated branch lists. -/
def transmuteGo (dp : NuclideDataProvider) (maxDepth flux : Nat) (tol t : ℚ)
    (E : ℚ → ℚ) : ChainCache → List (Nat × ℚ) → StepOut
  | c, [] => ⟨[], [], 0, [], c⟩
  | c, (n, a) :: rest =>
      let s := transmuteOne dp maxDepth flux tol t E c n a
      let r := transmuteGo dp maxDepth flux tol t E s.cache rest
      ⟨s.deltas ++ r.deltas, s.warns ++ r.warns, s.omission + r.omission,
        s.truncs ++ r.truncs, r.cache⟩

/-- Output of Transmuter.transmute: the fresh result material, the report and
the updated cache. -/
structure TransmuteOut where
  result : Material
  report : Report
  cache : ChainCache

/-- Modelled from the spec: Transmuter.transmute.  For every nuclide of the
input material the tree is obtained through the cache and every non truncated
path is solved at the elapsed time; contributions are accumulated by addition
into a result material built from scratch, so the input material value is
never written to; the cache is the only state carried over. -/
def transmute (dp : NuclideDataProvider) (maxDepth flux : Nat) (tol t : ℚ)
    (E : ℚ → ℚ) (c : ChainCache) (mat : Material) : TransmuteOut :=
  let s := transmuteGo dp maxDepth flux tol t E c mat
  ⟨s.deltas.foldl (fun m p => addAmount m p.1 p.2) [],
    ⟨s.warns, s.omission, s.truncs⟩, s.cache⟩

/-- Modelled from the tutorial usage (tutorial/06-transmutation.py) and the
spec: the public Transmuter object stores the construction time defaults for
elapsed time, flux and tolerance, together with the chain cache. -/
structure Transmuter where
  t : ℚ
  phi : Nat
  tol : ℚ
  cache : ChainCache

/-- Modelled from the tutorial usage: the material argument of the transmute
method may be a plain dict mapping nuclides to amounts or a Material value. -/
inductive MatInput
  | dict (entries : List (Nat × ℚ))
  | mat (m : Material)

/-- Both input forms denote a material. -/
def MatInput.toMaterial : MatInput → Material
  | .dict es => es
  | .mat m => m

/-- Modelled from the tutorial usage and the spec 4.4 contract
transmute(material, t, flux, tolerance): the transmute method of a Transmuter,
with optional per call overrides for the elapsed time, the flux and the
tolerance, each defaulting to the value stored at construction; only the cache
component of the returned state differs from the input state. -/
def Transmuter.transmuteCall (tm : Transmuter) (dp : NuclideDataProvider)
    (maxDepth : Nat) (E : ℚ → ℚ) (inp : MatInput) (tOver : Option ℚ)
    (phiOver : Option Nat) (tolOver : Option ℚ) :
    Transmuter × Material × Report :=
  let out := transmute dp maxDepth (phiOver.getD tm.phi) (tolOver.getD tm.tol)
    (tOver.getD tm.t) E tm.cache inp.toMaterial
  (⟨tm.t, tm.phi, tm.tol, out.cache⟩, out.result, out.report)

/-- Modelled from the spec: a data provider is branch free under a flux when
every known nuclide has an empty unified branch set (pure removal without
in-growth). -/
def BranchFree (dp : NuclideDataProvider) (flux : Nat) : Prop :=
  ∀ n lam brs, nodeData dp flux n = some (lam, brs) → brs = []

/-- Point solution of a branch free nuclide: the surviving fraction of its own
amount after time t. -/
def pointSol (dp : NuclideDataProvider) (flux : Nat) (E : ℚ → ℚ) (n : Nat)
    (t : ℚ) : ℚ :=
  match nodeData dp flux n with
  | none => 1
  | some (lam, _) => if lam = 0 then 1 else E (-lam * t)

/-- Single node tree of a branch free root. -/
def singleNode (dp : NuclideDataProvider) (flux n : Nat) : ChainNode :=
  match nodeData dp flux n with
  | none => ⟨n, 0, [0], 1, 0, .terminalStable, true, false⟩
  | some (lam, _) => ⟨n, lam, [lam], 1, 0, .terminalStable, false, false⟩

/-- Goodness of a cache with respect to a branch free provider: every stored
entry under the flux is the single node tree of its root, built from a root
known to the provider. -/
def GoodCache (dp : NuclideDataProvider) (flux : Nat) (c : ChainCache) : Prop :=
  ∀ n e, cacheLookup c.entries (n, flux) = some e →
    dp.decay_info n ≠ none ∧ e.tree = ⟨[singleNode dp flux n], 0⟩



/- Basic facts about coincidence detection. -/

theorem coincide_refl (x : ℚ) : coincide x x = true := by
  simp only [coincide, sub_self, abs_zero, max_self, decide_eq_true_eq, relTol]
  positivity

theorem ne_of_coincide_eq_false {x y : ℚ} (h : coincide x y = false) : x ≠ y := by
  intro hxy
  subst hxy
  rw [coincide_refl] at h
  cases h

theorem pairCoincide_eq_false_iff (l : List ℚ) :
    pairCoincide l = false ↔ l.Pairwise (fun a b => coincide a b = false) := by
  induction l with
  | nil => simp [pairCoincide]
  | cons x xs ih =>
      simp [pairCoincide, List.pairwise_cons, ih, List.any_eq_false]

/- Evaluation of the checked generic sum under pairwise distinctness. -/

theorem foldl_cdiv_eq (x : ℚ) :
    ∀ (l : List ℚ) (acc : ℚ), (∀ y ∈ l, y - x ≠ 0) →
      l.foldlM (fun acc y => (cdiv y (y - x)).map (fun q => acc * q)) acc =
        some (acc * (l.map (fun y => y / (y - x))).prod) := by
  intro l
  induction l with
  | nil => intro acc _; simp
  | cons y l ih =>
      intro acc h
      have hy : y - x ≠ 0 := h y (List.mem_cons_self y l)
      have hrest : ∀ z ∈ l, z - x ≠ 0 := fun z hz => h z (List.mem_cons_of_mem y hz)
      rw [List.foldlM_cons]
      have hstep : cdiv y (y - x) = some (y / (y - x)) := by simp [cdiv, hy]
      rw [hstep]
      simp only [Option.map_some', Option.bind_eq_bind, Option.some_bind, List.map_cons,
        List.prod_cons]
      rw [ih _ hrest, mul_assoc]

theorem prodOver_eq (x : ℚ) (others : List ℚ) (h : ∀ y ∈ others, y - x ≠ 0) :
    prodOver x others = some (specProd x others) := by
  have := foldl_cdiv_eq x others 1 h
  simpa [prodOver, specProd] using this

theorem termOf_eq (t : ℚ) (E : ℚ → ℚ) (x : ℚ) (others : List ℚ)
    (h : ∀ y ∈ others, y - x ≠ 0) :
    termOf t E x others = some (specTerm t E x others) := by
  by_cases hx : x = 0
  · subst hx
    simp [termOf, prodOver_eq 0 others h, specTerm]
  · simp [termOf, prodOver_eq x others h, specTerm, hx]

theorem sumGo_eq (t : ℚ) (E : ℚ → ℚ) :
    ∀ (suf pre : List ℚ), (pre ++ suf).Pairwise (fun a b => a ≠ b) →
      sumGo t E pre suf = some (specSumGo t E pre suf) := by
  intro suf
  induction suf with
  | nil => intro pre _; simp [sumGo, specSumGo]
  | cons x suf ih =>
      intro pre h
      have hsplit := List.pairwise_append.mp h
      have hx : ∀ y ∈ pre ++ suf, y - x ≠ 0 := by
        intro y hy
        rcases List.mem_append.mp hy with hyp | hys
        · exact sub_ne_zero_of_ne (hsplit.2.2 y hyp x (List.mem_cons_self x suf))
        · have := (List.pairwise_cons.mp hsplit.2.1).1 y hys
          exact sub_ne_zero_of_ne (Ne.symm this)
      have hperm : (pre ++ [x]) ++ suf = pre ++ x :: suf := by
        simp
      have hrec := ih (pre ++ [x]) (by rw [hperm]; exact h)
      simp [sumGo, termOf_eq t E x (pre ++ suf) hx, hrec, specSumGo]

/-- C1 amended: for a path whose removal constants are pairwise non-coincident
within the relative numerical tolerance (in particular pairwise distinct),
BatemanSolver.solve returns the product of the branch probabilities along the
path times the generic Bateman sum, in which each constant contributes the
coefficient product over the other constants y of y / (y - x) times E (-x * t),
a zero constant contributing the accumulation limit form instead of the
generic term. -/
theorem bateman_generic_formula (P : ℚ) (lams : List ℚ) (t : ℚ) (E : ℚ → ℚ)
    (h : lams.Pairwise (fun a b => coincide a b = false)) :
    solve P lams t E = some (P * specSum lams t E) := by
  have hpc : pairCoincide lams = false := (pairCoincide_eq_false_iff lams).mpr h
  have hne : lams.Pairwise (fun a b => a ≠ b) :=
    h.imp (fun hc => ne_of_coincide_eq_false hc)
  have hsum := sumGo_eq t E lams [] (by simpa using hne)
  simp [solve, hpc, hsum, specSum]

/-- C1 counterexample: the two removal constants 1 and 1 + 1e-10 are pairwise
distinct, yet BatemanSolver.solve does not return the generic Bateman sum for
them, because they coincide within the relative numerical tolerance 1e-9 and
the solver therefore takes the degenerate limit branch. -/
theorem bateman_generic_counterexample :
    List.Pairwise (fun a b : ℚ => a ≠ b) [1, 1 + 1 / 10 ^ 10] ∧
    solve 1 [1, 1 + 1 / 10 ^ 10] 1 (fun x => x) ≠
      some (1 * specSum [1, 1 + 1 / 10 ^ 10] 1 (fun x => x)) := by
  constructor
  · norm_num
  · norm_num [solve, pairCoincide, coincide, relTol, abs_of_nonneg, max_def,
      degenerateVal, canonicalize, canonGo, degenerateEP, degGo, convolve, convTerm,
      convGo, intPoly, polyIntegrate, polyIntAux, polyAdd, polyScale, polyEval,
      monomialP, epAdd, epAddTerm, epScale, epEval, specSum, specSumGo, specTerm,
      specProd, List.find?]

/-- C2: BatemanSolver.solve never raises an error: on every input it returns a
value (first conjunct, covering in particular the division-by-zero hazard of
the checked generic branch), and whenever two or more removal constants of the
path coincide within the relative numerical tolerance it returns the
degenerate limit closed form, a sum of polynomial-in-t times exponential
terms, so the NumericalDegeneracy condition is resolved internally and never
surfaced to the caller. -/
theorem bateman_degenerate_safe :
    (∀ (P : ℚ) (lams : List ℚ) (t : ℚ) (E : ℚ → ℚ), (solve P lams t E).isSome = true) ∧
    (∀ (P : ℚ) (lams : List ℚ) (t : ℚ) (E : ℚ → ℚ),
      ¬ lams.Pairwise (fun a b => coincide a b = false) →
      solve P lams t E = some (P * epEval (degenerateEP (canonicalize lams)) t E)) := by
  constructor
  · intro P lams t E
    by_cases hpc : pairCoincide lams = true
    · simp [solve, hpc]
    · have hpc2 : pairCoincide lams = false := by
        revert hpc; cases pairCoincide lams <;> simp
      have h := (pairCoincide_eq_false_iff lams).mp hpc2
      have hne : lams.Pairwise (fun a b => a ≠ b) :=
        h.imp (fun hc => ne_of_coincide_eq_false hc)
      have hsum := sumGo_eq t E lams [] (by simpa using hne)
      simp [solve, hpc2, hsum]
  · intro P lams t E h
    have hpc : pairCoincide lams = true := by
      by_contra hc
      have hpc2 : pairCoincide lams = false := by
        revert hc; cases pairCoincide lams <;> simp
      exact h ((pairCoincide_eq_false_iff lams).mp hpc2)
    simp [solve, hpc, degenerateVal]

/-- C2 witness: the degenerate branch applied to the concrete path with exactly
repeated removal constants 1, 1 and terminal 0. -/
theorem bateman_degenerate_safe_witness :
    solve 1 [1, 1, 0] 1 (fun x => x) =
      some (1 * epEval (degenerateEP (canonicalize [1, 1, 0])) 1 (fun x => x)) :=
  bateman_degenerate_safe.2 1 [1, 1, 0] 1 (fun x => x) (by
    intro hp
    have h := (List.pairwise_cons.mp hp).1 1 (List.mem_cons_self 1 [0])
    rw [coincide_refl] at h
    cases h)

/-- C1 witness for the amended statement: the removal constants 1, 2, 0 are
pairwise non-coincident, and solve evaluates the generic Bateman sum there. -/
theorem bateman_generic_formula_witness :
    solve 1 [1, 2, 0] 1 (fun x => x) = some (1 * specSum [1, 2, 0] 1 (fun x => x)) :=
  bateman_generic_formula 1 [1, 2, 0] 1 (fun x => x) (by
    norm_num [List.pairwise_cons, coincide, relTol, abs_of_nonneg, abs_of_nonpos,
      max_def])


/- Structural facts about the expansion. -/

theorem truncOmission_append (l1 l2 : List ChainNode) :
    truncOmission (l1 ++ l2) = truncOmission l1 + truncOmission l2 := by
  induction l1 with
  | nil => simp [truncOmission]
  | cons nd rest ih => simp [truncOmission, ih]; ring

theorem expandedCount_append (l1 l2 : List ChainNode) :
    expandedCount (l1 ++ l2) = expandedCount l1 + expandedCount l2 := by
  induction l1 with
  | nil => simp [expandedCount]
  | cons nd rest ih => simp [expandedCount, ih]; omega

theorem nodeData_zero_nil (dp : NuclideDataProvider) (flux n : Nat) (lam : ℚ)
    (brs : List (Nat × ℚ)) (h : nodeData dp flux n = some (lam, brs))
    (hlam : lam = 0) : brs = [] := by
  unfold nodeData at h
  cases hdi : dp.decay_info n <;> rw [hdi] at h
  · cases h
  · simp only [Option.some.injEq, Prod.mk.injEq] at h
    obtain ⟨h1, h2⟩ := h
    rw [← h2, if_pos (h1.trans hlam)]

theorem expandChildren_inv (tol : ℚ)
    (rec : Nat → ℚ → List ℚ → List Nat → Nat → List ChainNode × ℚ)
    (hrec : ∀ d cf lams vis depth, tol ≤ cf →
      (∀ nd ∈ (rec d cf lams vis depth).1, NodeInv tol nd) ∧
      (rec d cf lams vis depth).2 = truncOmission (rec d cf lams vis depth).1) :
    ∀ (bs : List (Nat × ℚ)) (frac : ℚ) (lams : List ℚ) (vis : List Nat) (depth : Nat),
      (∀ nd ∈ (expandChildren tol rec bs frac lams vis depth).1, NodeInv tol nd) ∧
      (expandChildren tol rec bs frac lams vis depth).2 =
        truncOmission (expandChildren tol rec bs frac lams vis depth).1 := by
  intro bs
  induction bs with
  | nil =>
      intro frac lams vis depth
      simp [expandChildren, truncOmission]
  | cons bp bs ih =>
      intro frac lams vis depth
      obtain ⟨d, p⟩ := bp
      have hrest := ih frac lams vis depth
      simp only [expandChildren]
      by_cases h1 : frac * p < tol
      · rw [if_pos h1]
        constructor
        · intro nd hnd
          rcases List.mem_append.mp hnd with hh | hh
          · rcases List.mem_singleton.mp hh with rfl
            refine ⟨(by intro hf; cases hf), (fun _ => Or.inl h1), (by intro hw; cases hw)⟩
          · exact hrest.1 nd hh
        · rw [truncOmission_append, hrest.2]
          simp [truncOmission]
      · rw [if_neg h1]
        by_cases h2 : d ∈ vis
        · rw [if_pos h2]
          constructor
          · intro nd hnd
            rcases List.mem_append.mp hnd with hh | hh
            · rcases List.mem_singleton.mp hh with rfl
              refine ⟨(by intro hf; cases hf), (fun _ => Or.inr rfl), (by intro hw; cases hw)⟩
            · exact hrest.1 nd hh
          · rw [truncOmission_append, hrest.2]
            simp [truncOmission]
        · rw [if_neg h2]
          have hr := hrec d (frac * p) lams vis (depth + 1) (not_lt.mp h1)
          constructor
          · intro nd hnd
            rcases List.mem_append.mp hnd with hh | hh
            · exact hr.1 nd hh
            · exact hrest.1 nd hh
          · rw [truncOmission_append, hrest.2, hr.2]

theorem expandGo_inv (dp : NuclideDataProvider) (flux : Nat) (tol : ℚ) :
    ∀ (fuel n : Nat) (frac : ℚ) (lams : List ℚ) (vis : List Nat) (depth : Nat),
      tol ≤ frac →
      (∀ nd ∈ (expandGo dp flux tol fuel n frac lams vis depth).1, NodeInv tol nd) ∧
      (expandGo dp flux tol fuel n frac lams vis depth).2 =
        truncOmission (expandGo dp flux tol fuel n frac lams vis depth).1 := by
  intro fuel
  induction fuel with
  | zero =>
      intro n frac lams vis depth _
      constructor
      · intro nd hnd
        rcases List.mem_singleton.mp hnd with rfl
        exact ⟨(by intro hf; cases hf), (fun _ => Or.inr rfl), (by intro hw; cases hw)⟩
      · simp [expandGo, truncOmission]
  | succ fuel ih =>
      intro n frac lams vis depth h
      simp only [expandGo]
      cases hnd : nodeData dp flux n with
      | none =>
          constructor
          · intro nd hmem
            rcases List.mem_singleton.mp hmem with rfl
            exact ⟨(by intro hf; cases hf), (by intro hf; cases hf), (fun _ => ⟨rfl, rfl⟩)⟩
          · simp [truncOmission]
      | some pr =>
          obtain ⟨lam, brs⟩ := pr
          cases brs with
          | nil =>
              constructor
              · intro nd hmem
                rcases List.mem_singleton.mp hmem with rfl
                exact ⟨(by intro hf; cases hf), (by intro hf; cases hf), (by intro hw; cases hw)⟩
              · simp [truncOmission]
          | cons b bs =>
              have hlam : lam ≠ 0 := by
                intro hl
                have := nodeData_zero_nil dp flux n lam (b :: bs) hnd hl
                cases this
              have hch := expandChildren_inv tol (expandGo dp flux tol fuel)
                (fun d cf l v dep hcf => ih d cf l v dep hcf)
                (b :: bs) frac (lams ++ [lam]) (n :: vis) depth
              constructor
              · intro nd hmem
                rcases List.mem_cons.mp hmem with rfl | hmem2
                · exact ⟨(fun _ => ⟨h, hlam⟩), (by intro hf; cases hf), (by intro hw; cases hw)⟩
                · exact hch.1 nd hmem2
              · simp [truncOmission, hch.2]

/-- C4: in every tree produced by ChainBuilder.expand (with tolerance at most
one), every node flagged internal (expanded) has cumulative branch fraction at
least the tolerance — a node whose fraction falls below the tolerance is never
expanded; every truncated leaf either records a fraction below the tolerance or
is cycle capped, and its reported omission bound is its own cumulative
fraction; every node is internal, terminal stable or truncated, so every leaf
(non internal node) is terminal stable or truncated; and the total bounded
omission error of the tree equals the sum of the cumulative fractions of its
truncated leaves. -/
theorem chain_tree_invariants (dp : NuclideDataProvider) (flux : Nat) (tol : ℚ)
    (maxDepth root : Nat) (tr : DecayChainTree) (htol : tol ≤ 1)
    (h : expand dp flux tol maxDepth root = some tr) :
    (∀ nd ∈ tr.nodes,
        (nd.flag = .internal → tol ≤ nd.cumFrac ∧ nd.removalConst ≠ 0) ∧
        (nd.flag = .truncated → nd.cumFrac < tol ∨ nd.cycleCapped = true) ∧
        (nd.flag = .internal ∨ nd.flag = .terminalStable ∨ nd.flag = .truncated)) ∧
    tr.omission = truncOmission tr.nodes := by
  have hinv := expandGo_inv dp flux tol maxDepth root 1 [] [] 0 htol
  unfold expand at h
  cases hdi : dp.decay_info root <;> rw [hdi] at h
  · cases h
  · simp only [Option.some.injEq] at h
    subst h
    constructor
    · intro nd hmem
      have hi := hinv.1 nd hmem
      refine ⟨hi.internal_ge, hi.truncated_below, ?_⟩
      cases hf : nd.flag
      · exact Or.inl rfl
      · exact Or.inr (Or.inl rfl)
      · exact Or.inr (Or.inr rfl)
    · exact hinv.2

/-- C4 witness: the invariants instantiated on the concrete provider dpEx with
tolerance one half, where the branch to nuclide 3 (cumulative fraction 3/10)
is truncated and the omission error of the tree is 3/10. -/
theorem chain_tree_invariants_witness :
    (∀ nd ∈ ([
        ⟨1, 1, [1], 1, 0, .internal, false, false⟩,
        ⟨2, 2, [1, 2], 7 / 10, 1, .internal, false, false⟩,
        ⟨4, 0, [1, 2, 0], 7 / 10, 2, .terminalStable, false, false⟩,
        ⟨3, 0, [1, 0], 3 / 10, 1, .truncated, false, false⟩] : List ChainNode),
        (nd.flag = .internal → (1 : ℚ) / 2 ≤ nd.cumFrac ∧ nd.removalConst ≠ 0) ∧
        (nd.flag = .truncated → nd.cumFrac < 1 / 2 ∨ nd.cycleCapped = true) ∧
        (nd.flag = .internal ∨ nd.flag = .terminalStable ∨ nd.flag = .truncated)) ∧
    (3 / 10 : ℚ) = truncOmission [
        ⟨1, 1, [1], 1, 0, .internal, false, false⟩,
        ⟨2, 2, [1, 2], 7 / 10, 1, .internal, false, false⟩,
        ⟨4, 0, [1, 2, 0], 7 / 10, 2, .terminalStable, false, false⟩,
        ⟨3, 0, [1, 0], 3 / 10, 1, .truncated, false, false⟩] :=
  chain_tree_invariants dpEx 0 (1 / 2) 4 1
    ⟨[⟨1, 1, [1], 1, 0, .internal, false, false⟩,
      ⟨2, 2, [1, 2], 7 / 10, 1, .internal, false, false⟩,
      ⟨4, 0, [1, 2, 0], 7 / 10, 2, .terminalStable, false, false⟩,
      ⟨3, 0, [1, 0], 3 / 10, 1, .truncated, false, false⟩], 3 / 10⟩
    (by norm_num)
    (by norm_num [expand, dpEx, expandGo, expandChildren, nodeData])

theorem expandChildren_mono (tol1 tol2 : ℚ) (hle : tol1 ≤ tol2)
    (rec1 rec2 : Nat → ℚ → List ℚ → List Nat → Nat → List ChainNode × ℚ)
    (hrec : ∀ d cf lams vis depth,
      expandedCount (rec2 d cf lams vis depth).1 ≤
        expandedCount (rec1 d cf lams vis depth).1) :
    ∀ (bs : List (Nat × ℚ)) (frac : ℚ) (lams : List ℚ) (vis : List Nat) (depth : Nat),
      expandedCount (expandChildren tol2 rec2 bs frac lams vis depth).1 ≤
        expandedCount (expandChildren tol1 rec1 bs frac lams vis depth).1 := by
  intro bs
  induction bs with
  | nil =>
      intro frac lams vis depth
      simp [expandChildren]
  | cons bp bs ih =>
      intro frac lams vis depth
      obtain ⟨d, p⟩ := bp
      have hrest := ih frac lams vis depth
      simp only [expandChildren]
      by_cases h1 : frac * p < tol1
      · have h2 : frac * p < tol2 := lt_of_lt_of_le h1 hle
        rw [if_pos h1, if_pos h2]
        simp [expandedCount_append, expandedCount]
        exact hrest
      · rw [if_neg h1]
        by_cases h2 : frac * p < tol2
        · rw [if_pos h2]
          by_cases h3 : d ∈ vis
          · rw [if_pos h3]
            simp [expandedCount_append, expandedCount]
            exact hrest
          · rw [if_neg h3]
            simp [expandedCount_append, expandedCount]
            exact le_trans hrest (Nat.le_add_left _ _)
        · rw [if_neg h2]
          by_cases h3 : d ∈ vis
          · rw [if_pos h3, if_pos h3]
            simp only [expandedCount_append]
            exact Nat.add_le_add le_rfl hrest
          · rw [if_neg h3, if_neg h3]
            simp only [expandedCount_append]
            exact Nat.add_le_add (hrec d (frac * p) lams vis (depth + 1)) hrest

theorem expandGo_mono (dp : NuclideDataProvider) (flux : Nat) (tol1 tol2 : ℚ)
    (hle : tol1 ≤ tol2) :
    ∀ (fuel n : Nat) (frac : ℚ) (lams : List ℚ) (vis : List Nat) (depth : Nat),
      expandedCount (expandGo dp flux tol2 fuel n frac lams vis depth).1 ≤
        expandedCount (expandGo dp flux tol1 fuel n frac lams vis depth).1 := by
  intro fuel
  induction fuel with
  | zero =>
      intro n frac lams vis depth
      simp [expandGo]
  | succ fuel ih =>
      intro n frac lams vis depth
      simp only [expandGo]
      cases hnd : nodeData dp flux n with
      | none => exact le_rfl
      | some pr =>
          obtain ⟨lam, brs⟩ := pr
          cases brs with
          | nil => exact le_rfl
          | cons b bs =>
              have hch := expandChildren_mono tol1 tol2 hle
                (expandGo dp flux tol1 fuel) (expandGo dp flux tol2 fuel)
                (fun d cf l v dep => ih d cf l v dep)
                (b :: bs) frac (lams ++ [lam]) (n :: vis) depth
              simp only [expandedCount]
              exact Nat.add_le_add le_rfl hch

/-- C5: for a fixed root nuclide, flux and data provider, a tighter (smaller)
tolerance never produces a tree with fewer expanded (non truncated) nodes than
a looser tolerance: the expanded node count with tol1 at most that with tol2
whenever tol1 is at most tol2. -/
theorem tolerance_monotonicity (dp : NuclideDataProvider) (flux maxDepth root : Nat)
    (tol1 tol2 : ℚ) (tr1 tr2 : DecayChainTree) (hle : tol1 ≤ tol2)
    (h1 : expand dp flux tol1 maxDepth root = some tr1)
    (h2 : expand dp flux tol2 maxDepth root = some tr2) :
    expandedCount tr2.nodes ≤ expandedCount tr1.nodes := by
  unfold expand at h1 h2
  cases hdi : dp.decay_info root <;> rw [hdi] at h1 h2
  · cases h1
  · simp only [Option.some.injEq] at h1 h2
    subst h1
    subst h2
    exact expandGo_mono dp flux tol1 tol2 hle maxDepth root 1 [] [] 0

/-- C5 witness: with the concrete provider dpEx, the tighter tolerance 1/10
expands the missing data branch to nuclide 3 into a stable leaf (four expanded
nodes) while the looser tolerance 1/2 truncates it (three expanded nodes). -/
theorem tolerance_monotonicity_witness :
    expandedCount ([
        ⟨1, 1, [1], 1, 0, .internal, false, false⟩,
        ⟨2, 2, [1, 2], 7 / 10, 1, .internal, false, false⟩,
        ⟨4, 0, [1, 2, 0], 7 / 10, 2, .terminalStable, false, false⟩,
        ⟨3, 0, [1, 0], 3 / 10, 1, .truncated, false, false⟩] : List ChainNode) ≤
      expandedCount ([
        ⟨1, 1, [1], 1, 0, .internal, false, false⟩,
        ⟨2, 2, [1, 2], 7 / 10, 1, .internal, false, false⟩,
        ⟨4, 0, [1, 2, 0], 7 / 10, 2, .terminalStable, false, false⟩,
        ⟨3, 0, [1, 0], 3 / 10, 1, .terminalStable, true, false⟩] : List ChainNode) :=
  tolerance_monotonicity dpEx 0 4 1 (1 / 10) (1 / 2)
    ⟨[⟨1, 1, [1], 1, 0, .internal, false, false⟩,
      ⟨2, 2, [1, 2], 7 / 10, 1, .internal, false, false⟩,
      ⟨4, 0, [1, 2, 0], 7 / 10, 2, .terminalStable, false, false⟩,
      ⟨3, 0, [1, 0], 3 / 10, 1, .terminalStable, true, false⟩], 0⟩
    ⟨[⟨1, 1, [1], 1, 0, .internal, false, false⟩,
      ⟨2, 2, [1, 2], 7 / 10, 1, .internal, false, false⟩,
      ⟨4, 0, [1, 2, 0], 7 / 10, 2, .terminalStable, false, false⟩,
      ⟨3, 0, [1, 0], 3 / 10, 1, .truncated, false, false⟩], 3 / 10⟩
    (by norm_num)
    (by norm_num [expand, dpEx, expandGo, expandChildren, nodeData])
    (by norm_num [expand, dpEx, expandGo, expandChildren, nodeData])

/- Material accounting lemmas. -/

theorem amountOf_addAmount (m : Material) (n : Nat) (v : ℚ) (d : Nat) :
    amountOf (addAmount m n v) d = amountOf m d + (if n = d then v else 0) := by
  induction m with
  | nil =>
      by_cases h : n = d <;> simp [addAmount, amountOf, h]
  | cons p rest ih =>
      obtain ⟨k, a⟩ := p
      by_cases hk : k = n
      · subst hk
        by_cases hd : k = d <;> simp [addAmount, amountOf, hd]
      · by_cases hd : k = d
        · subst hd
          have hn : n ≠ k := fun h => hk h.symm
          simp [addAmount, hk, amountOf, hn]
        · simp [addAmount, hk, amountOf, hd, ih]

theorem amountTotal_addAmount (m : Material) (n : Nat) (v : ℚ) (d : Nat) :
    amountTotal (addAmount m n v) d = amountTotal m d + (if n = d then v else 0) := by
  induction m with
  | nil =>
      by_cases h : n = d <;> simp [addAmount, amountTotal, h]
  | cons p rest ih =>
      obtain ⟨k, a⟩ := p
      by_cases hk : k = n
      · subst hk
        by_cases hd : k = d
        · simp [addAmount, amountTotal, hd]
          ring
        · simp [addAmount, amountTotal, hd]
      · simp only [addAmount, if_neg hk, amountTotal, ih]
        ring

theorem amountTotal_append (L1 L2 : List (Nat × ℚ)) (d : Nat) :
    amountTotal (L1 ++ L2) d = amountTotal L1 d + amountTotal L2 d := by
  induction L1 with
  | nil => simp [amountTotal]
  | cons p rest ih =>
      obtain ⟨k, a⟩ := p
      simp [amountTotal, ih]
      ring

theorem amountOf_foldl (L : List (Nat × ℚ)) :
    ∀ (m0 : Material) (d : Nat),
      amountOf (L.foldl (fun m p => addAmount m p.1 p.2) m0) d =
        amountOf m0 d + amountTotal L d := by
  induction L with
  | nil =>
      intro m0 d
      simp [amountTotal]
  | cons p L ih =>
      intro m0 d
      obtain ⟨k, a⟩ := p
      simp only [List.foldl_cons, amountTotal]
      rw [ih, amountOf_addAmount]
      ring

theorem amountTotal_foldl (L : List (Nat × ℚ)) :
    ∀ (m0 : Material) (d : Nat),
      amountTotal (L.foldl (fun m p => addAmount m p.1 p.2) m0) d =
        amountTotal m0 d + amountTotal L d := by
  induction L with
  | nil =>
      intro m0 d
      simp [amountTotal]
  | cons p L ih =>
      intro m0 d
      obtain ⟨k, a⟩ := p
      simp only [List.foldl_cons, amountTotal]
      rw [ih, amountTotal_addAmount]
      ring

theorem transmuteGo_append (dp : NuclideDataProvider) (maxDepth flux : Nat)
    (tol t : ℚ) (E : ℚ → ℚ) :
    ∀ (xs ys : List (Nat × ℚ)) (c : ChainCache),
      transmuteGo dp maxDepth flux tol t E c (xs ++ ys) =
        ⟨(transmuteGo dp maxDepth flux tol t E c xs).deltas ++
            (transmuteGo dp maxDepth flux tol t E
              (transmuteGo dp maxDepth flux tol t E c xs).cache ys).deltas,
          (transmuteGo dp maxDepth flux tol t E c xs).warns ++
            (transmuteGo dp maxDepth flux tol t E
              (transmuteGo dp maxDepth flux tol t E c xs).cache ys).warns,
          (transmuteGo dp maxDepth flux tol t E c xs).omission +
            (transmuteGo dp maxDepth flux tol t E
              (transmuteGo dp maxDepth flux tol t E c xs).cache ys).omission,
          (transmuteGo dp maxDepth flux tol t E c xs).truncs ++
            (transmuteGo dp maxDepth flux tol t E
              (transmuteGo dp maxDepth flux tol t E c xs).cache ys).truncs,
          (transmuteGo dp maxDepth flux tol t E
            (transmuteGo dp maxDepth flux tol t E c xs).cache ys).cache⟩ := by
  intro xs
  induction xs with
  | nil =>
      intro ys c
      simp [transmuteGo]
  | cons p xs ih =>
      intro ys c
      obtain ⟨n, a⟩ := p
      simp only [List.cons_append, transmuteGo, List.append_eq]
      rw [ih]
      simp only [transmuteGo, StepOut.mk.injEq]
      refine ⟨?_, ?_, ?_, ?_, trivial⟩
      · simp [List.append_assoc]
      · simp [List.append_assoc]
      · ring
      · simp [List.append_assoc]

/-- C9: the transmute method does not mutate the input material and the only
state it updates is the chain cache: the stored defaults of the Transmuter are
returned unchanged, the returned cache is the cache produced by the pure
transmute function of the inputs, and the result material is that pure
function of the input material value, which is only read. -/
theorem transmute_frame (tm : Transmuter) (dp : NuclideDataProvider)
    (maxDepth : Nat) (E : ℚ → ℚ) (inp : MatInput) (tOver : Option ℚ)
    (phiOver : Option Nat) (tolOver : Option ℚ) :
    (tm.transmuteCall dp maxDepth E inp tOver phiOver tolOver).1.t = tm.t ∧
    (tm.transmuteCall dp maxDepth E inp tOver phiOver tolOver).1.phi = tm.phi ∧
    (tm.transmuteCall dp maxDepth E inp tOver phiOver tolOver).1.tol = tm.tol ∧
    (tm.transmuteCall dp maxDepth E inp tOver phiOver tolOver).1.cache =
      (transmute dp maxDepth (phiOver.getD tm.phi) (tolOver.getD tm.tol)
        (tOver.getD tm.t) E tm.cache inp.toMaterial).cache ∧
    (tm.transmuteCall dp maxDepth E inp tOver phiOver tolOver).2.1 =
      (transmute dp maxDepth (phiOver.getD tm.phi) (tolOver.getD tm.tol)
        (tOver.getD tm.t) E tm.cache inp.toMaterial).result :=
  ⟨rfl, rfl, rfl, rfl, rfl⟩

/-- C10: the Transmuter constructor arguments for elapsed time, flux and
tolerance act as stored defaults, and an individual transmute call may
override any of them: an override of all three takes full precedence, each of
the elapsed time, the flux and the tolerance can be overridden alone with the
other two falling back to the stored defaults, a call without overrides uses
the stored defaults for all three, and a plain dict is accepted as material,
behaving exactly like the corresponding Material value, the result being a
material in every case. -/
theorem transmuter_interface (tm : Transmuter) (dp : NuclideDataProvider)
    (maxDepth : Nat) (E : ℚ → ℚ) (es : List (Nat × ℚ)) (m : Material)
    (t2 tol2 : ℚ) (phi2 : Nat) (tOver tolOver : Option ℚ) (phiOver : Option Nat) :
    (tm.transmuteCall dp maxDepth E (.mat m) (some t2) (some phi2) (some tol2)).2.1 =
      (transmute dp maxDepth phi2 tol2 t2 E tm.cache m).result ∧
    (tm.transmuteCall dp maxDepth E (.mat m) (some t2) none none).2.1 =
      (transmute dp maxDepth tm.phi tm.tol t2 E tm.cache m).result ∧
    (tm.transmuteCall dp maxDepth E (.mat m) none (some phi2) none).2.1 =
      (transmute dp maxDepth phi2 tm.tol tm.t E tm.cache m).result ∧
    (tm.transmuteCall dp maxDepth E (.mat m) none none (some tol2)).2.1 =
      (transmute dp maxDepth tm.phi tol2 tm.t E tm.cache m).result ∧
    (tm.transmuteCall dp maxDepth E (.mat m) none none none).2.1 =
      (transmute dp maxDepth tm.phi tm.tol tm.t E tm.cache m).result ∧
    (tm.transmuteCall dp maxDepth E (.dict es) tOver phiOver tolOver =
      tm.transmuteCall dp maxDepth E (.mat es) tOver phiOver tolOver) :=
  ⟨rfl, rfl, rfl, rfl, rfl, rfl⟩

/- Single nuclide evaluation lemmas. -/

theorem nodeData_none_iff (dp : NuclideDataProvider) (flux n : Nat) :
    nodeData dp flux n = none ↔ dp.decay_info n = none := by
  unfold nodeData
  cases h : dp.decay_info n <;> simp

theorem solve_single (lam t : ℚ) (E : ℚ → ℚ) :
    solve 1 [lam] t E = some (if lam = 0 then 1 else E (-lam * t)) := by
  by_cases h : lam = 0
  · subst h
    simp [solve, pairCoincide, sumGo, termOf, prodOver, List.foldlM]
  · simp [solve, pairCoincide, sumGo, termOf, prodOver, List.foldlM, h]

theorem expand_stable (dp : NuclideDataProvider) (flux n maxDepth : Nat) (tol : ℚ)
    (hmd : 0 < maxDepth) (hn : nodeData dp flux n = some (0, [])) :
    expand dp flux tol maxDepth n =
      some ⟨[⟨n, 0, [0], 1, 0, .terminalStable, false, false⟩], 0⟩ := by
  cases maxDepth with
  | zero => exact absurd hmd (by simp)
  | succ f =>
      cases hdi : dp.decay_info n with
      | none =>
          rw [(nodeData_none_iff dp flux n).mpr hdi] at hn
          cases hn
      | some di =>
          simp [expand, hdi, expandGo, hn]

/-- C3 counterexample: nuclide 2 is stable under dpC3 (removal constant zero)
and enters the material with amount one, yet transmute does not return its
amount unchanged, because the chain of nuclide 1 produces nuclide 2 and the
contributions accumulate. -/
theorem stable_identity_counterexample :
    nodeData dpC3 0 2 = some (0, []) ∧
    amountOf [(1, 1), (2, 1)] 2 = 1 ∧
    amountOf (transmute dpC3 4 0 (1 / 2) 1 oneE emptyCache [(1, 1), (2, 1)]).result 2 ≠ 1 := by
  refine ⟨by norm_num [nodeData, dpC3], by norm_num [amountOf], ?_⟩
  norm_num [transmute, transmuteGo, transmuteOne, get_or_build, cacheLookup, emptyCache,
    expand, dpC3, expandGo, expandChildren, nodeData, solveVal, solve, pairCoincide,
    coincide, relTol, sumGo, termOf, prodOver, cdiv, oneE, amountOf, addAmount,
    abs_of_nonneg, abs_of_nonpos, max_def]

/-- C3 amended: for a nuclide with removal constant zero, transmute of a
material containing that nuclide alone returns its amount unchanged at every
elapsed time (in general its own chain contributes exactly its amount, but
other chains of the material may additionally produce the nuclide); and in
every expanded tree a node with removal constant zero is never internal, so a
stable nuclide is always a terminal node of its chain tree. -/
theorem stable_chain_identity (dp : NuclideDataProvider) (flux maxDepth : Nat)
    (tol t a : ℚ) (E : ℚ → ℚ) (n : Nat) (htol : tol ≤ 1) (hmd : 0 < maxDepth)
    (hn : nodeData dp flux n = some (0, [])) :
    amountOf (transmute dp maxDepth flux tol t E emptyCache [(n, a)]).result n = a ∧
    (∀ (root : Nat) (tr : DecayChainTree),
      expand dp flux tol maxDepth root = some tr →
      ∀ nd ∈ tr.nodes, nd.removalConst = 0 → nd.flag ≠ .internal) := by
  constructor
  · by_cases ha : a = 0
    · subst ha
      simp [transmute, transmuteGo, transmuteOne, amountOf]
    · have hexp := expand_stable dp flux n maxDepth tol hmd hn
      simp [transmute, transmuteGo, transmuteOne, ha, get_or_build, cacheLookup,
        emptyCache, hexp, solveVal, solve_single, amountOf, addAmount]
  · intro root tr hexp nd hmem hrc
    unfold expand at hexp
    cases hdi : dp.decay_info root <;> rw [hdi] at hexp
    · cases hexp
    · simp only [Option.some.injEq] at hexp
      subst hexp
      have hinv := expandGo_inv dp flux tol maxDepth root 1 [] [] 0 htol
      intro hflag
      exact ((hinv.1 nd hmem).internal_ge hflag).2 hrc

/-- C3 witness for the amended statement: the stable nuclide 2 with amount
five passes through transmute unchanged, and nodes of zero removal constant
are terminal throughout the trees of dpC3. -/
theorem stable_chain_identity_witness :
    amountOf (transmute dpC3 4 0 (1 / 2) 1 oneE emptyCache [(2, 5)]).result 2 = 5 ∧
    (∀ (root : Nat) (tr : DecayChainTree),
      expand dpC3 0 (1 / 2) 4 root = some tr →
      ∀ nd ∈ tr.nodes, nd.removalConst = 0 → nd.flag ≠ .internal) :=
  stable_chain_identity dpC3 0 4 (1 / 2) 1 5 oneE 2 (by norm_num) (by norm_num)
    (by norm_num [nodeData, dpC3])

/- Missing root data lemmas. -/

theorem expand_none (dp : NuclideDataProvider) (flux maxDepth n : Nat) (tol : ℚ)
    (hnone : dp.decay_info n = none) :
    expand dp flux tol maxDepth n = none := by
  simp [expand, hnone]

theorem get_or_build_preserve_none (dp : NuclideDataProvider) (maxDepth : Nat)
    (c : ChainCache) (root flux : Nat) (tol : ℚ) (n : Nat)
    (hnone : dp.decay_info n = none)
    (h : cacheLookup c.entries (n, flux) = none) :
    cacheLookup (get_or_build dp maxDepth c root flux tol).2.entries (n, flux) = none := by
  unfold get_or_build
  cases hl : cacheLookup c.entries (root, flux) with
  | some e =>
      by_cases he : e.tol ≤ tol
      · simp [he, h]
      · cases hx : expand dp flux tol maxDepth root with
        | none => simp [he, h]
        | some tr =>
            have hroot : ¬ root = n := by
              intro hr
              subst hr
              rw [expand_none dp flux maxDepth root tol hnone] at hx
              cases hx
            simp [he, cacheLookup, hroot, h]
  | none =>
      cases hx : expand dp flux tol maxDepth root with
      | none => simp [h]
      | some tr =>
          have hroot : ¬ root = n := by
            intro hr
            subst hr
            rw [expand_none dp flux maxDepth root tol hnone] at hx
            cases hx
          simp [cacheLookup, hroot, h]

theorem transmuteOne_cache (dp : NuclideDataProvider) (maxDepth flux : Nat)
    (tol t b : ℚ) (E : ℚ → ℚ) (c : ChainCache) (m : Nat) :
    (transmuteOne dp maxDepth flux tol t E c m b).cache = c ∨
    (transmuteOne dp maxDepth flux tol t E c m b).cache =
      (get_or_build dp maxDepth c m flux tol).2 := by
  unfold transmuteOne
  by_cases hb : b = 0
  · simp [hb]
  · cases hg : get_or_build dp maxDepth c m flux tol with
    | mk opt c2 =>
        cases opt <;> simp [hb, hg]

theorem transmuteGo_preserve_none (dp : NuclideDataProvider) (maxDepth flux : Nat)
    (tol t : ℚ) (E : ℚ → ℚ) (n : Nat) (hnone : dp.decay_info n = none) :
    ∀ (xs : List (Nat × ℚ)) (c : ChainCache),
      cacheLookup c.entries (n, flux) = none →
      cacheLookup (transmuteGo dp maxDepth flux tol t E c xs).cache.entries (n, flux) = none := by
  intro xs
  induction xs with
  | nil =>
      intro c h
      simpa [transmuteGo] using h
  | cons p xs ih =>
      intro c h
      obtain ⟨m, b⟩ := p
      simp only [transmuteGo]
      apply ih
      rcases transmuteOne_cache dp maxDepth flux tol t b E c m with hc | hc
      · rw [hc]; exact h
      · rw [hc]; exact get_or_build_preserve_none dp maxDepth c m flux tol n hnone h

theorem transmuteOne_missing (dp : NuclideDataProvider) (maxDepth flux : Nat)
    (tol t a : ℚ) (E : ℚ → ℚ) (c : ChainCache) (n : Nat) (ha : a ≠ 0)
    (hnone : dp.decay_info n = none)
    (hlk : cacheLookup c.entries (n, flux) = none) :
    transmuteOne dp maxDepth flux tol t E c n a = ⟨[(n, a)], [.noDecayData n], 0, [], c⟩ := by
  unfold transmuteOne
  rw [if_neg ha]
  have hg : get_or_build dp maxDepth c n flux tol = (none, c) := by
    unfold get_or_build
    rw [hlk, expand_none dp flux maxDepth n tol hnone]
  rw [hg]

/-- C8: under the default failure policy, an input nuclide whose root has no
decay data passes its amount through unchanged into the result, with a
NoDecayData warning in the report, and its failure does not alter the
processing of any other nuclide of the same call: removing it from the
material changes the result only by its own passthrough amount and leaves the
final cache identical.  Missing data for a non root branch is recovered
locally as a stable leaf recorded with a warning: every node marked with the
missing data warning is a terminal stable node of recorded removal constant
zero. -/
theorem no_decay_data_passthrough (dp : NuclideDataProvider) (maxDepth flux : Nat)
    (tol t a : ℚ) (E : ℚ → ℚ) (c0 : ChainCache) (pre post : List (Nat × ℚ)) (n : Nat)
    (htol : tol ≤ 1) (ha : a ≠ 0) (hnone : dp.decay_info n = none)
    (hc0 : cacheLookup c0.entries (n, flux) = none) :
    (∀ d, amountOf (transmute dp maxDepth flux tol t E c0 (pre ++ (n, a) :: post)).result d =
      amountOf (transmute dp maxDepth flux tol t E c0 (pre ++ post)).result d +
        (if n = d then a else 0)) ∧
    Warn.noDecayData n ∈
      (transmute dp maxDepth flux tol t E c0 (pre ++ (n, a) :: post)).report.warnings ∧
    (transmute dp maxDepth flux tol t E c0 (pre ++ (n, a) :: post)).cache =
      (transmute dp maxDepth flux tol t E c0 (pre ++ post)).cache ∧
    (∀ (root : Nat) (tr : DecayChainTree),
      expand dp flux tol maxDepth root = some tr →
      ∀ nd ∈ tr.nodes, nd.warnMissing = true →
        nd.flag = .terminalStable ∧ nd.removalConst = 0) := by
  have hs1 : cacheLookup (transmuteGo dp maxDepth flux tol t E c0 pre).cache.entries
      (n, flux) = none :=
    transmuteGo_preserve_none dp maxDepth flux tol t E n hnone pre c0 hc0
  have hstep := transmuteOne_missing dp maxDepth flux tol t a E
    (transmuteGo dp maxDepth flux tol t E c0 pre).cache n ha hnone hs1
  have hfull := transmuteGo_append dp maxDepth flux tol t E pre ((n, a) :: post) c0
  have hrest := transmuteGo_append dp maxDepth flux tol t E pre post c0
  constructor
  · intro d
    simp only [transmute, hfull, hrest, transmuteGo, hstep]
    rw [amountOf_foldl, amountOf_foldl]
    simp only [amountOf, amountTotal_append, amountTotal, List.append_eq, List.nil_append]
    ring
  · constructor
    · simp only [transmute, hfull, transmuteGo, hstep]
      simp [List.mem_append]
    · constructor
      · simp only [transmute, hfull, hrest, transmuteGo, hstep]
      · intro root tr hexp nd hmem hwarn
        unfold expand at hexp
        cases hdi : dp.decay_info root <;> rw [hdi] at hexp
        · cases hexp
        · simp only [Option.some.injEq] at hexp
          subst hexp
          have hinv := expandGo_inv dp flux tol maxDepth root 1 [] [] 0 htol
          exact (hinv.1 nd hmem).warn_stable hwarn

/-- C8 witness: with dpEx and tolerance 1/10, nuclide 7 (unknown to the
provider) passes through with amount two and a warning, without altering the
processing of nuclide 1, and the missing data branch to nuclide 3 inside the
tree of nuclide 1 is a stable leaf with zero removal constant. -/
theorem no_decay_data_passthrough_witness :
    (∀ d, amountOf (transmute dpEx 4 0 (1 / 10) 1 oneE emptyCache
        ([(1, 1)] ++ (7, 2) :: [])).result d =
      amountOf (transmute dpEx 4 0 (1 / 10) 1 oneE emptyCache ([(1, 1)] ++ [])).result d +
        (if 7 = d then 2 else 0)) ∧
    Warn.noDecayData 7 ∈
      (transmute dpEx 4 0 (1 / 10) 1 oneE emptyCache
        ([(1, 1)] ++ (7, 2) :: [])).report.warnings ∧
    (transmute dpEx 4 0 (1 / 10) 1 oneE emptyCache ([(1, 1)] ++ (7, 2) :: [])).cache =
      (transmute dpEx 4 0 (1 / 10) 1 oneE emptyCache ([(1, 1)] ++ [])).cache ∧
    (∀ (root : Nat) (tr : DecayChainTree),
      expand dpEx 0 (1 / 10) 4 root = some tr →
      ∀ nd ∈ tr.nodes, nd.warnMissing = true →
        nd.flag = .terminalStable ∧ nd.removalConst = 0) :=
  no_decay_data_passthrough dpEx 4 0 (1 / 10) 1 2 oneE emptyCache [(1, 1)] [] 7
    (by norm_num) (by norm_num) (by norm_num [dpEx]) (by norm_num [emptyCache, cacheLookup])

/- Cache reuse lemmas. -/

theorem get_or_build_cached (dp : NuclideDataProvider) (maxDepth : Nat)
    (c : ChainCache) (root flux : Nat) (tol : ℚ) (e : CacheEntry)
    (hl : cacheLookup c.entries (root, flux) = some e) (he : e.tol ≤ tol) :
    get_or_build dp maxDepth c root flux tol = (some e, c) := by
  unfold get_or_build
  rw [hl]
  simp [he]

theorem buildCount_push (c : ChainCache) (root flux : Nat) (tol : ℚ)
    (entries : List ((Nat × Nat) × CacheEntry)) :
    buildCount ⟨entries, ((root, flux), tol) :: c.buildLog⟩ root flux tol =
      buildCount c root flux tol + 1 := by
  simp [buildCount, List.countP_cons]

theorem get_or_build_keyinv (dp : NuclideDataProvider) (maxDepth : Nat)
    (c : ChainCache) (root flux : Nat) (tol : ℚ)
    (hcount : buildCount c root flux tol ≤ 1)
    (hdisj : (∃ e, cacheLookup c.entries (root, flux) = some e ∧ e.tol ≤ tol) ∨
      buildCount c root flux tol = 0) :
    buildCount (get_or_build dp maxDepth c root flux tol).2 root flux tol ≤ 1 ∧
    ((∃ e, cacheLookup (get_or_build dp maxDepth c root flux tol).2.entries
        (root, flux) = some e ∧ e.tol ≤ tol) ∨
      buildCount (get_or_build dp maxDepth c root flux tol).2 root flux tol = 0) := by
  rcases hdisj with ⟨e, hl, he⟩ | hzero
  · rw [get_or_build_cached dp maxDepth c root flux tol e hl he]
    exact ⟨hcount, Or.inl ⟨e, hl, he⟩⟩
  · unfold get_or_build
    cases hl : cacheLookup c.entries (root, flux) with
    | some e =>
        simp only []
        by_cases he : e.tol ≤ tol
        · rw [if_pos he]
          exact ⟨hcount, Or.inl ⟨e, hl, he⟩⟩
        · rw [if_neg he]
          cases hx : expand dp flux tol maxDepth root with
          | none =>
              simp only []
              exact ⟨hcount, Or.inr hzero⟩
          | some tr =>
              simp only []
              constructor
              · rw [buildCount_push c root flux tol, hzero]
              · refine Or.inl ⟨⟨tol, tr⟩, ?_, le_refl tol⟩
                simp [cacheLookup]
    | none =>
        simp only []
        cases hx : expand dp flux tol maxDepth root with
        | none =>
            simp only []
            exact ⟨hcount, Or.inr hzero⟩
        | some tr =>
            simp only []
            constructor
            · rw [buildCount_push c root flux tol, hzero]
            · refine Or.inl ⟨⟨tol, tr⟩, ?_, le_refl tol⟩
              simp [cacheLookup]

theorem transmute_single_cache (dp : NuclideDataProvider) (maxDepth flux : Nat)
    (tol t a : ℚ) (E : ℚ → ℚ) (c : ChainCache) (root : Nat) (ha : a ≠ 0) :
    (transmute dp maxDepth flux tol t E c [(root, a)]).cache =
      (get_or_build dp maxDepth c root flux tol).2 := by
  unfold transmute transmuteGo transmuteOne
  rw [if_neg ha]
  cases hg : get_or_build dp maxDepth c root flux tol with
  | mk opt c2 =>
      cases opt <;> simp [transmuteGo]

/-- C7: for every sequence of transmute calls sharing the same root nuclide,
flux fingerprint and tolerance but differing elapsed times, starting from a
cache with no recorded build for that key, the tree is built at most once (the
build counter of the key never exceeds one, later calls reusing the cached
structure); and a request with a tolerance strictly tighter than the cached
one triggers a rebuild (the build counter of the tighter request increments
whenever the builder has data for the root). -/
theorem cache_reuse (dp : NuclideDataProvider) (maxDepth flux root : Nat)
    (tol a : ℚ) (E : ℚ → ℚ) (ts : List ℚ) (c0 : ChainCache)
    (ha : a ≠ 0) (h0 : buildCount c0 root flux tol = 0) :
    buildCount (ts.foldl (fun c t =>
        (transmute dp maxDepth flux tol t E c [(root, a)]).cache) c0) root flux tol ≤ 1 ∧
    (∀ (c : ChainCache) (e : CacheEntry) (tol2 : ℚ) (tr : DecayChainTree),
      cacheLookup c.entries (root, flux) = some e → tol2 < e.tol →
      expand dp flux tol2 maxDepth root = some tr →
      buildCount (get_or_build dp maxDepth c root flux tol2).2 root flux tol2 =
        buildCount c root flux tol2 + 1) := by
  constructor
  · have main : ∀ (ts : List ℚ) (c : ChainCache),
        buildCount c root flux tol ≤ 1 →
        ((∃ e, cacheLookup c.entries (root, flux) = some e ∧ e.tol ≤ tol) ∨
          buildCount c root flux tol = 0) →
        buildCount (ts.foldl (fun c t =>
          (transmute dp maxDepth flux tol t E c [(root, a)]).cache) c) root flux tol ≤ 1 := by
      intro ts
      induction ts with
      | nil => intro c h1 _; simpa using h1
      | cons t ts ih =>
          intro c h1 h2
          simp only [List.foldl_cons]
          rw [transmute_single_cache dp maxDepth flux tol t a E c root ha]
          have hstep := get_or_build_keyinv dp maxDepth c root flux tol h1 h2
          exact ih (get_or_build dp maxDepth c root flux tol).2 hstep.1 hstep.2
    exact main ts c0 (by rw [h0]; exact Nat.zero_le 1) (Or.inr h0)
  · intro c e tol2 tr hl hlt hx
    unfold get_or_build
    rw [hl]
    simp only []
    rw [if_neg (not_le.mpr hlt), hx]
    simp only []
    exact buildCount_push c root flux tol2 (((root, flux), ⟨tol2, tr⟩) :: c.entries)

/-- C7 witness: two transmute calls on dpEx with the same key and elapsed
times one and two build the tree at most once from the empty cache, and a
tolerance 1/4 request against a cache holding a tolerance 1/2 entry for the
key rebuilds, incrementing the build counter. -/
theorem cache_reuse_witness :
    buildCount ([(1 : ℚ), 2].foldl (fun c t =>
        (transmute dpEx 4 0 (1 / 2) t oneE c [(1, 1)]).cache) emptyCache) 1 0 (1 / 2) ≤ 1 ∧
    (∀ (c : ChainCache) (e : CacheEntry) (tol2 : ℚ) (tr : DecayChainTree),
      cacheLookup c.entries (1, 0) = some e → tol2 < e.tol →
      expand dpEx 0 tol2 4 1 = some tr →
      buildCount (get_or_build dpEx 4 c 1 0 tol2).2 1 0 tol2 =
        buildCount c 1 0 tol2 + 1) :=
  cache_reuse dpEx 4 0 1 (1 / 2) 1 oneE [1, 2] emptyCache (by norm_num)
    (by norm_num [buildCount, emptyCache])

/- Branch free time additivity lemmas. -/

theorem goodCache_empty (dp : NuclideDataProvider) (flux : Nat) :
    GoodCache dp flux emptyCache := by
  intro m e hl
  simp [emptyCache, cacheLookup] at hl

theorem goodCache_cons (dp : NuclideDataProvider) (flux : Nat) (c : ChainCache)
    (hc : GoodCache dp flux c) (root : Nat) (e : CacheEntry)
    (hroot : dp.decay_info root ≠ none)
    (he : e.tree = ⟨[singleNode dp flux root], 0⟩)
    (log : List ((Nat × Nat) × ℚ)) :
    GoodCache dp flux ⟨((root, flux), e) :: c.entries, log⟩ := by
  intro m e2 hl
  simp only [cacheLookup] at hl
  by_cases hm : ((root, flux) : Nat × Nat) = (m, flux)
  · rw [if_pos hm] at hl
    have hrm : root = m := by
      have := Prod.mk.injEq root flux m flux ▸ hm
      simpa using this
    subst hrm
    cases hl
    exact ⟨hroot, he⟩
  · rw [if_neg hm] at hl
    exact hc m e2 hl

theorem expand_branchFree (dp : NuclideDataProvider) (flux : Nat)
    (hBF : BranchFree dp flux) (maxDepth : Nat) (hmd : 0 < maxDepth)
    (root : Nat) (tol : ℚ) (di : DecayInfo) (hdi : dp.decay_info root = some di) :
    expand dp flux tol maxDepth root = some ⟨[singleNode dp flux root], 0⟩ := by
  cases maxDepth with
  | zero => exact absurd hmd (by simp)
  | succ f =>
      cases hn : nodeData dp flux root with
      | none =>
          rw [nodeData_none_iff] at hn
          rw [hn] at hdi
          cases hdi
      | some pr =>
          obtain ⟨lam, brs⟩ := pr
          have hbrs : brs = [] := hBF root lam brs hn
          subst hbrs
          simp [expand, hdi, expandGo, hn, singleNode]

theorem get_or_build_good (dp : NuclideDataProvider) (maxDepth flux : Nat)
    (hBF : BranchFree dp flux) (hmd : 0 < maxDepth) (c : ChainCache)
    (hc : GoodCache dp flux c) (root : Nat) (tol : ℚ) :
    GoodCache dp flux (get_or_build dp maxDepth c root flux tol).2 ∧
    (dp.decay_info root = none → get_or_build dp maxDepth c root flux tol = (none, c)) ∧
    (dp.decay_info root ≠ none →
      ∃ e, (get_or_build dp maxDepth c root flux tol).1 = some e ∧
        e.tree = ⟨[singleNode dp flux root], 0⟩) := by
  unfold get_or_build
  cases hl : cacheLookup c.entries (root, flux) with
  | some e =>
      simp only []
      have hgood := hc root e hl
      by_cases he : e.tol ≤ tol
      · rw [if_pos he]
        exact ⟨hc, fun hnone => absurd hnone hgood.1, fun _ => ⟨e, rfl, hgood.2⟩⟩
      · rw [if_neg he]
        cases hdi : dp.decay_info root with
        | none => exact absurd hdi hgood.1
        | some di =>
            rw [expand_branchFree dp flux hBF maxDepth hmd root tol di hdi]
            simp only []
            refine ⟨?_, ?_, ?_⟩
            · exact goodCache_cons dp flux c hc root ⟨tol, ⟨[singleNode dp flux root], 0⟩⟩
                (by rw [hdi]; exact fun h => by cases h) rfl _
            · intro hnone
              cases hnone
            · intro _
              exact ⟨⟨tol, ⟨[singleNode dp flux root], 0⟩⟩, rfl, rfl⟩
  | none =>
      simp only []
      cases hdi : dp.decay_info root with
      | none =>
          rw [expand_none dp flux maxDepth root tol hdi]
          exact ⟨hc, fun _ => rfl, fun hne => absurd rfl hne⟩
      | some di =>
          rw [expand_branchFree dp flux hBF maxDepth hmd root tol di hdi]
          simp only []
          refine ⟨?_, ?_, ?_⟩
          · exact goodCache_cons dp flux c hc root ⟨tol, ⟨[singleNode dp flux root], 0⟩⟩
              (by rw [hdi]; exact fun h => by cases h) rfl _
          · intro hnone
            cases hnone
          · intro _
            exact ⟨⟨tol, ⟨[singleNode dp flux root], 0⟩⟩, rfl, rfl⟩

theorem solveVal_single (lam t : ℚ) (E : ℚ → ℚ) :
    solveVal 1 [lam] t E = if lam = 0 then 1 else E (-lam * t) := by
  rw [solveVal, solve_single]
  rfl

theorem pointSol_none (dp : NuclideDataProvider) (flux : Nat) (E : ℚ → ℚ)
    (d : Nat) (t : ℚ) (h : nodeData dp flux d = none) :
    pointSol dp flux E d t = 1 := by
  simp [pointSol, h]

theorem pointSol_some (dp : NuclideDataProvider) (flux : Nat) (E : ℚ → ℚ)
    (d : Nat) (t lam : ℚ) (brs : List (Nat × ℚ))
    (h : nodeData dp flux d = some (lam, brs)) :
    pointSol dp flux E d t = if lam = 0 then 1 else E (-lam * t) := by
  simp [pointSol, h]

theorem transmuteOne_branchFree (dp : NuclideDataProvider) (maxDepth flux : Nat)
    (tol t a : ℚ) (E : ℚ → ℚ) (hBF : BranchFree dp flux) (hmd : 0 < maxDepth)
    (c : ChainCache) (hc : GoodCache dp flux c) (n : Nat) (ha : a ≠ 0)
    (lam : ℚ) (brs : List (Nat × ℚ)) (hn : nodeData dp flux n = some (lam, brs)) :
    transmuteOne dp maxDepth flux tol t E c n a =
      ⟨[(n, a * (if lam = 0 then 1 else E (-lam * t)))], [], 0, [],
        (get_or_build dp maxDepth c n flux tol).2⟩ := by
  have hne : dp.decay_info n ≠ none := by
    intro h
    rw [(nodeData_none_iff dp flux n).mpr h] at hn
    cases hn
  have hg := get_or_build_good dp maxDepth flux hBF hmd c hc n tol
  obtain ⟨e, he1, he2⟩ := hg.2.2 hne
  have hsingle : singleNode dp flux n =
      ⟨n, lam, [lam], 1, 0, .terminalStable, false, false⟩ := by
    simp [singleNode, hn]
  unfold transmuteOne
  rw [if_neg ha]
  cases hget : get_or_build dp maxDepth c n flux tol with
  | mk opt c2 =>
      rw [hget] at he1
      simp only [] at he1
      subst he1
      simp only []
      rw [he2, hsingle]
      simp [solveVal_single, List.filter, List.map]

theorem transmuteGo_pointwise (dp : NuclideDataProvider) (maxDepth flux : Nat)
    (tol t : ℚ) (E : ℚ → ℚ) (hBF : BranchFree dp flux) (hmd : 0 < maxDepth) :
    ∀ (xs : List (Nat × ℚ)) (c : ChainCache), GoodCache dp flux c →
      (∀ d, amountTotal (transmuteGo dp maxDepth flux tol t E c xs).deltas d =
        amountTotal xs d * pointSol dp flux E d t) ∧
      GoodCache dp flux (transmuteGo dp maxDepth flux tol t E c xs).cache := by
  intro xs
  induction xs with
  | nil =>
      intro c hc
      constructor
      · intro d
        simp [transmuteGo, amountTotal]
      · simpa [transmuteGo] using hc
  | cons p xs ih =>
      intro c hc
      obtain ⟨n, a⟩ := p
      simp only [transmuteGo]
      by_cases ha : a = 0
      · subst ha
        have hstep : transmuteOne dp maxDepth flux tol t E c n 0 = ⟨[], [], 0, [], c⟩ := by
          simp [transmuteOne]
        rw [hstep]
        have hrest := ih c hc
        refine ⟨?_, hrest.2⟩
        intro d
        simp only [List.append_eq, List.nil_append, amountTotal]
        rw [hrest.1 d]
        simp only [ite_self]
        ring
      · have hg := get_or_build_good dp maxDepth flux hBF hmd c hc n tol
        cases hdi : dp.decay_info n with
        | none =>
            have hstep : transmuteOne dp maxDepth flux tol t E c n a =
                ⟨[(n, a)], [.noDecayData n], 0, [], c⟩ := by
              unfold transmuteOne
              rw [if_neg ha, hg.2.1 hdi]
            rw [hstep]
            have hrest := ih c hc
            refine ⟨?_, hrest.2⟩
            intro d
            simp only [List.cons_append, List.append_eq, List.nil_append, amountTotal]
            rw [hrest.1 d]
            by_cases hnd : n = d
            · subst hnd
              rw [pointSol_none dp flux E n t ((nodeData_none_iff dp flux n).mpr hdi)]
              simp only [if_true]
              ring
            · simp only [if_neg hnd]
              ring
        | some di =>
            cases hn : nodeData dp flux n with
            | none =>
                rw [nodeData_none_iff] at hn
                rw [hn] at hdi
                cases hdi
            | some pr =>
                obtain ⟨lam, brs⟩ := pr
                rw [transmuteOne_branchFree dp maxDepth flux tol t a E hBF hmd c hc n ha
                  lam brs hn]
                have hrest := ih (get_or_build dp maxDepth c n flux tol).2 hg.1
                refine ⟨?_, hrest.2⟩
                intro d
                simp only [List.cons_append, List.append_eq, List.nil_append, amountTotal]
                rw [hrest.1 d]
                by_cases hnd : n = d
                · subst hnd
                  rw [pointSol_some dp flux E n t lam brs hn]
                  simp only [if_true]
                  ring
                · simp only [if_neg hnd]
                  ring

theorem transmute_pointwise (dp : NuclideDataProvider) (maxDepth flux : Nat)
    (tol t : ℚ) (E : ℚ → ℚ) (hBF : BranchFree dp flux) (hmd : 0 < maxDepth)
    (c : ChainCache) (hc : GoodCache dp flux c) (mat : Material) :
    (∀ d, amountOf (transmute dp maxDepth flux tol t E c mat).result d =
      amountTotal mat d * pointSol dp flux E d t) ∧
    (∀ d, amountTotal (transmute dp maxDepth flux tol t E c mat).result d =
      amountTotal mat d * pointSol dp flux E d t) ∧
    GoodCache dp flux (transmute dp maxDepth flux tol t E c mat).cache := by
  have h := transmuteGo_pointwise dp maxDepth flux tol t E hBF hmd mat c hc
  refine ⟨?_, ?_, h.2⟩
  · intro d
    simp only [transmute]
    rw [amountOf_foldl]
    simp only [amountOf]
    rw [h.1 d]
    ring
  · intro d
    simp only [transmute]
    rw [amountTotal_foldl]
    simp only [amountTotal]
    rw [h.1 d]
    ring

theorem pointSol_additive (dp : NuclideDataProvider) (flux : Nat) (E : ℚ → ℚ)
    (hE : ∀ x y, E (x + y) = E x * E y) (d : Nat) (t1 t2 : ℚ) :
    pointSol dp flux E d t1 * pointSol dp flux E d t2 =
      pointSol dp flux E d (t1 + t2) := by
  unfold pointSol
  cases hn : nodeData dp flux d with
  | none => simp
  | some pr =>
      obtain ⟨lam, brs⟩ := pr
      by_cases hl : lam = 0
      · simp [hl]
      · simp only [if_neg hl]
        have harg : -lam * (t1 + t2) = -lam * t1 + -lam * t2 := by ring
        rw [harg, hE]

/-- C6 amended: for a material of nuclides with time invariant removal
constants and no in-growth branches (a branch free provider, so no tree is
ever truncated), transmuting for t1 and then for t2 agrees exactly and
pointwise with transmuting for t1 + t2, whenever the exponential oracle is a
homomorphism from sums to products, as the mathematical exponential is. -/
theorem time_additivity (dp : NuclideDataProvider) (maxDepth flux : Nat)
    (tol t1 t2 : ℚ) (E : ℚ → ℚ) (mat : Material)
    (hE : ∀ x y, E (x + y) = E x * E y) (hBF : BranchFree dp flux)
    (hmd : 0 < maxDepth) :
    ∀ d, amountOf (transmute dp maxDepth flux tol t2 E
        (transmute dp maxDepth flux tol t1 E emptyCache mat).cache
        (transmute dp maxDepth flux tol t1 E emptyCache mat).result).result d =
      amountOf (transmute dp maxDepth flux tol (t1 + t2) E emptyCache mat).result d := by
  intro d
  have h1 := transmute_pointwise dp maxDepth flux tol t1 E hBF hmd emptyCache
    (goodCache_empty dp flux) mat
  have h2 := transmute_pointwise dp maxDepth flux tol t2 E hBF hmd
    (transmute dp maxDepth flux tol t1 E emptyCache mat).cache h1.2.2
    (transmute dp maxDepth flux tol t1 E emptyCache mat).result
  have h3 := transmute_pointwise dp maxDepth flux tol (t1 + t2) E hBF hmd emptyCache
    (goodCache_empty dp flux) mat
  rw [h2.1 d, h1.2.1 d, h3.1 d, mul_assoc, pointSol_additive dp flux E hE d t1 t2]

/-- C6 counterexample: with the two member chain dpC3 (parent 1 into stable
daughter 2), the constant exponential oracle oneE (a homomorphism from sums to
products), and no truncation anywhere (all truncated branch lists empty),
composing transmute over times one and one gives the stable daughter amount
two, while transmuting directly over time two gives one: the composition and
the single call disagree even though no branch is truncated. -/
theorem time_additivity_counterexample :
    (∀ x y : ℚ, oneE (x + y) = oneE x * oneE y) ∧
    (transmute dpC3 4 0 (1 / 2) 1 oneE emptyCache [(1, 1)]).report.truncatedBranches = [] ∧
    (transmute dpC3 4 0 (1 / 2) 1 oneE
      (transmute dpC3 4 0 (1 / 2) 1 oneE emptyCache [(1, 1)]).cache
      (transmute dpC3 4 0 (1 / 2) 1 oneE emptyCache [(1, 1)]).result).report.truncatedBranches = [] ∧
    (transmute dpC3 4 0 (1 / 2) 2 oneE emptyCache [(1, 1)]).report.truncatedBranches = [] ∧
    amountOf (transmute dpC3 4 0 (1 / 2) 1 oneE
        (transmute dpC3 4 0 (1 / 2) 1 oneE emptyCache [(1, 1)]).cache
        (transmute dpC3 4 0 (1 / 2) 1 oneE emptyCache [(1, 1)]).result).result 2 ≠
      amountOf (transmute dpC3 4 0 (1 / 2) 2 oneE emptyCache [(1, 1)]).result 2 := by
  refine ⟨fun x y => by simp [oneE], ?_, ?_, ?_, ?_⟩ <;>
    norm_num [transmute, transmuteGo, transmuteOne, get_or_build, cacheLookup, emptyCache,
      expand, dpC3, expandGo, expandChildren, nodeData, solveVal, solve, pairCoincide,
      coincide, relTol, sumGo, termOf, prodOver, cdiv, oneE, amountOf, addAmount,
      abs_of_nonneg, abs_of_nonpos, max_def] <;>
    exact ⟨(fun h => by cases h), (fun h => by cases h)⟩

/-- C6 witness for the amended statement: a single parent nuclide with no
daughters recorded (nuclide 2 of dpC3 alone) transmuted for one and then one
more time unit agrees with transmuting for two time units. -/
theorem time_additivity_witness :
    amountOf (transmute dpC3x 4 0 (1 / 2) 1 oneE
        (transmute dpC3x 4 0 (1 / 2) 1 oneE emptyCache [(2, 3)]).cache
        (transmute dpC3x 4 0 (1 / 2) 1 oneE emptyCache [(2, 3)]).result).result 2 =
      amountOf (transmute dpC3x 4 0 (1 / 2) (1 + 1) oneE emptyCache [(2, 3)]).result 2 :=
  time_additivity dpC3x 4 0 (1 / 2) 1 1 oneE [(2, 3)]
    (fun x y => by simp [oneE])
    (by
      intro n lam brs h
      by_cases h2 : n = 2
      · subst h2
        simp [nodeData, dpC3x] at h
        exact h.2
      · simp [nodeData, dpC3x, h2] at h)
    (by norm_num) 2

end PyNE
